import Mathlib

/-!
# Verification of the caption ingestion-and-retrieval core

Shallow embedding, in Lean 4, of the algorithmic core of the
InternalTrainingSystem backend:

* `backend/app/services/transcript_service.py` — VTT cue parsing and
  transcript chunking (`parse_vtt`, `_parse_timestamp`, `chunk_transcript`);
* `backend/app/services/embedding_service.py` — the deterministic offline
  fallback embedding (`_fallback_embedding`);
* `backend/app/services/ai_chat_service.py` — timestamp-window context
  retrieval (`_get_chunks_by_timestamp`), the merge-and-deduplicate step of
  `ask_question`, and the confidence score (`_calculate_confidence`).

Modelling conventions:

* Python `float` values (times, distances, similarity scores) are modelled as
  exact rationals `ℚ`; Python `int` as `ℤ`/`ℕ`.
* Python `str` is modelled as `List Char` so that every string operation is a
  structurally recursive, kernel-computable function (Lean's built-in `String`
  functions are not kernel-reducible).  Whitespace/digit/alphanumeric character
  classes are modelled by Lean's ASCII predicates.
* Python's stable `list.sort(key=...)` is modelled by `List.insertionSort`
  (also a stable sort; a stable sort for a total preorder is unique, so the
  two agree element-for-element).
* Exceptions used for control flow (the per-cue `try/except` in `parse_vtt`,
  the `int()`/`float()` conversions inside `_parse_timestamp`) are modelled by
  `Option`: a conversion that would raise returns `none`, and a cue whose
  processing would raise is the `none` case of `parseCue`.
-/

namespace ITS

/-! ## Python string primitives (on `List Char`) -/

/-- Python `str.strip()`: drop whitespace from both ends. -/
def pyStrip (s : List Char) : List Char :=
  ((s.dropWhile Char.isWhitespace).reverse.dropWhile Char.isWhitespace).reverse

/-- Python `str.split(sep)` for a single-character separator `sep`
(as used with `':'`, `'.'` and `'\n'`).  `''.split(sep) == ['']`. -/
def splitOnChar (sep : Char) : List Char → List (List Char)
  | [] => [[]]
  | c :: rest =>
    if c = sep then [] :: splitOnChar sep rest
    else
      match splitOnChar sep rest with
      | [] => [[c]]
      | g :: gs => (c :: g) :: gs

/-- Python `s.split('-->')`: split at the leftmost non-overlapping
occurrences of the three-character separator `-->`. -/
def splitArrow : List Char → List (List Char)
  | '-' :: '-' :: '>' :: rest => [] :: splitArrow rest
  | c :: rest =>
    match splitArrow rest with
    | [] => [[c]]
    | g :: gs => (c :: g) :: gs
  | [] => [[]]

/-- Python `'-->' in s` (substring membership), phrased through the split:
a separator occurrence exists iff the split has at least two groups. -/
def containsArrow (s : List Char) : Bool :=
  decide (2 ≤ (splitArrow s).length)

/-- Python `str.isdigit()`: non-empty and every character a digit
(ASCII model of the unicode predicate). -/
def pyIsDigit (s : List Char) : Bool :=
  !s.isEmpty && s.all Char.isDigit

/-- Numeric value of a digit string (most significant digit first). -/
def digitsVal (s : List Char) : ℕ :=
  s.foldl (fun acc c => 10 * acc + (c.toNat - 48)) 0

/-- Python `int(s)`: optional surrounding whitespace, optional sign, then a
non-empty run of digits; anything else raises `ValueError`, modelled as
`none`.  (Underscore digit separators are not modelled.) -/
def pyIntParse (s : List Char) : Option ℤ :=
  match pyStrip s with
  | '+' :: ds => if pyIsDigit ds then some (digitsVal ds : ℤ) else none
  | '-' :: ds => if pyIsDigit ds then some (-(digitsVal ds : ℤ)) else none
  | ds => if pyIsDigit ds then some (digitsVal ds : ℤ) else none

/-- Unsigned decimal body accepted by Python `float(...)`: `digits`,
`digits.digits`, `digits.` or `.digits`. -/
def pyFloatDigits (t : List Char) : Option ℚ :=
  match splitOnChar '.' t with
  | [ip] => if pyIsDigit ip then some (digitsVal ip : ℚ) else none
  | [ip, fp] =>
    if (ip.all Char.isDigit && fp.all Char.isDigit) && !(ip.isEmpty && fp.isEmpty) then
      some ((digitsVal ip : ℚ) + (digitsVal fp : ℚ) / (10 : ℚ) ^ fp.length)
    else none
  | _ => none

/-- Python `float(s)`: optional surrounding whitespace and sign around a
decimal body; a string outside the grammar raises `ValueError`, modelled as
`none`.  (Exponent, `inf`/`nan` and underscore forms are not modelled; they
never occur in VTT timestamps.) -/
def pyFloatParse (s : List Char) : Option ℚ :=
  match pyStrip s with
  | '+' :: t => pyFloatDigits t
  | '-' :: t => (pyFloatDigits t).map (fun q => -q)
  | t => pyFloatDigits t

/-! ## `transcript_service.py` -/

/-- One parsed transcript entry, as produced by `TranscriptService.parse_vtt`
(a dict with keys `start_time`, `end_time`, `text`). -/
structure Entry where
  start_time : ℚ
  end_time : ℚ
  text : List Char
  deriving DecidableEq, Repr

/-- The common tail of `TranscriptService._parse_timestamp`: seconds field
split on `'.'`, `float` conversions for the seconds and millisecond parts,
`int` conversions for hours and minutes.  Any conversion failure raises in
Python (caught by the caller's per-cue handler), modelled as `none`. -/
def parseHMS (h m s : List Char) : Option ℚ :=
  match splitOnChar '.' s with
  | [] => none
  | s0 :: rest => do
    let secs ← pyFloatParse s0
    let millisecs ←
      match rest with
      | [] => some (0 : ℚ)
      | s1 :: _ => (pyFloatParse s1).map (fun q => q / 1000)
    let hi ← pyIntParse h
    let mi ← pyIntParse m
    some ((hi : ℚ) * 3600 + (mi : ℚ) * 60 + secs + millisecs)

/-- `TranscriptService._parse_timestamp`: split on `':'`; three parts are
`HH:MM:SS`, two parts are `MM:SS` with hours `'0'`; any other shape returns
`0.0` (not an error). -/
def parse_timestamp (ts : List Char) : Option ℚ :=
  match splitOnChar ':' ts with
  | [h, m, s] => parseHMS h m s
  | [m, s] => parseHMS ['0'] m s
  | _ => some 0

/-- Character class `[\w-]` of the cue-identifier pattern (ASCII model of
Python's `\w`). -/
def isWordOrHyphen (c : Char) : Bool :=
  c.isAlphanum || c = '_' || c = '-'

/-- Python `re.match(r'^[\w-]+-\d+$', line)`: a non-empty run of word
characters or hyphens, a hyphen, then a non-empty run of digits, spanning the
whole line.  Equivalently (since a digit is also a word character, the digit
run must be the maximal digit suffix and the character before it `'-'`):
the maximal digit suffix is non-empty, is preceded by `'-'`, and the
non-empty remainder before that hyphen is all word-or-hyphen characters. -/
def matchesCueId (s : List Char) : Bool :=
  let rev := s.reverse
  let digs := rev.takeWhile Char.isDigit
  let rest := rev.drop digs.length
  decide (1 ≤ digs.length) &&
    (match rest with
     | '-' :: pre => !pre.isEmpty && pre.all isWordOrHyphen
     | _ => false)

/-- One iteration of the text-collection loop of `parse_vtt` (lines 82–93):
skip a timestamp line; skip the first line (`i == 0`) when it looks like a
cue identifier (UUID-style pattern or digits only); skip a purely numeric
line anywhere; keep the line otherwise. -/
def keepLine (isFirst : Bool) (line : List Char) : Option (List Char) :=
  if containsArrow line then none
  else if isFirst && (matchesCueId line || pyIsDigit line) then none
  else if pyIsDigit line then none
  else some line

/-- The text-collection loop of `parse_vtt` (lines 81–93).  The loop index
`i` is used only for the `i == 0` test, so the enumeration is modelled by
treating the head line with `isFirst = true` and the rest with
`isFirst = false`. -/
def collectTextLines : List (List Char) → List (List Char)
  | [] => []
  | l0 :: rest => (keepLine true l0).toList ++ rest.filterMap (keepLine false)

/-- The per-cue body of `parse_vtt` (lines 63–106), applied to the cue's
stripped lines: require at least two lines, locate the timestamp line among
the first two lines, split it on `-->`, parse both timestamps (failure of
either is the caught-exception path, `none`), collect the text lines, and
produce an entry only when the space-joined stripped text is non-empty. -/
def parseCueLines (lines : List (List Char)) : Option Entry :=
  if lines.length < 2 then none
  else
    let tline? :=
      match lines with
      | l0 :: rest =>
        if containsArrow l0 then some l0
        else
          match rest with
          | l1 :: _ => if containsArrow l1 then some l1 else none
          | [] => none
      | [] => none
    match tline? with
    | none => none
    | some tl =>
      match splitArrow tl with
      | t0 :: t1 :: _ =>
        match parse_timestamp (pyStrip t0), parse_timestamp (pyStrip t1) with
        | some st, some et =>
          let text := pyStrip (List.intercalate [' '] (collectTextLines lines))
          if text.isEmpty then none else some ⟨st, et, text⟩
        | _, _ => none
      | _ => none

/-- One iteration of the cue loop of `parse_vtt`: skip a blank cue, then
process the cue's stripped lines. -/
def parseCue (cue : List Char) : Option Entry :=
  if (pyStrip cue).isEmpty then none
  else parseCueLines (splitOnChar '\n' (pyStrip cue))

/-- `TranscriptService.parse_vtt` from the cue list onward: the loop over
`cues` (line 59) appends an entry for every cue that parses and silently
skips the rest; a total function with no failure case.  (The preceding
normalisation — CRLF conversion, `WEBVTT` header and `NOTE` removal, and the
regex split on blank lines — happens before this loop and is taken as given:
this function consumes the resulting cue list.) -/
def parse_vtt_cues (cues : List (List Char)) : List Entry :=
  cues.filterMap parseCue

/-- `TranscriptChunk` as constructed in `chunk_transcript`. -/
structure TranscriptChunk where
  text : List Char
  start_time : ℚ
  end_time : ℚ
  index : ℕ
  deriving DecidableEq, Repr

/-- The chunk built from one window: text is the space-join of the entries'
texts, `start_time`/`end_time` come from the first/last entry of the window
(`chunk_entries[0]`/`chunk_entries[-1]`; the `Option.elim 0` default is the
unreachable empty-window case, which in Python would raise `IndexError` and
is excluded by the `if not chunk_entries: continue` guard). -/
def mkChunk (w : List Entry) (idx : ℕ) : TranscriptChunk :=
  { text := List.intercalate [' '] (w.map Entry.text)
    start_time := (w.head?.elim 0 Entry.start_time)
    end_time := (w.getLast?.elim 0 Entry.end_time)
    index := idx }

/-- The body of the `chunk_transcript` loop: one chunk per non-empty window,
with the running `index` incremented only when a chunk is produced. -/
def buildChunks : List (List Entry) → ℕ → List TranscriptChunk
  | [], _ => []
  | w :: rest, idx =>
    if w.isEmpty then buildChunks rest idx
    else mkChunk w idx :: buildChunks rest (idx + 1)

/-- The start offsets generated by `range(0, n, stride)` for `stride ≥ 1`:
the multiples `k * stride` for `k < ⌈n / stride⌉`.  (Python raises
`ValueError` for a zero step, i.e. `overlap == chunk_size`; the claims under
verification all assume `overlap < chunk_size`.) -/
def chunkStarts (n stride : ℕ) : List ℕ :=
  (List.range ((n + stride - 1) / stride)).map (· * stride)

/-- `TranscriptService.chunk_transcript`: slide a window
`entries[i : i + chunk_size]` across the entry list at stride
`chunk_size - overlap` and build one chunk per non-empty window. -/
def chunk_transcript (entries : List Entry) (chunk_size overlap : ℕ) :
    List TranscriptChunk :=
  buildChunks
    ((chunkStarts entries.length (chunk_size - overlap)).map
      (fun i => (entries.drop i).take chunk_size)) 0

/-! ## `embedding_service.py` -/

/-- `EmbeddingService._fallback_embedding`, parameterised by the digest
function (`hashlib.sha256(text.encode()).digest()` — a deterministic pure
function producing a 32-byte digest; it is kept abstract here, the theorems
assuming only its length and byte range).  `math.ceil(dims / len(digest))`
equals `(dims + len - 1) / len` in natural division for a non-empty digest;
`digest * repeat_factor` is modelled by `List.replicate` + `flatten`, and
each byte is normalised by `255.0`. -/
def fallback_embedding (sha : List Char → List ℕ) (text : List Char)
    (dims : ℕ) : List ℚ :=
  let digest := sha text
  let repeat_factor := (dims + digest.length - 1) / digest.length
  let data := (List.replicate repeat_factor digest).flatten.take dims
  data.map fun b : ℕ => (b : ℚ) / 255

/-! ## `ai_chat_service.py` -/

/-- A retrieved-chunk dict as passed around `ai_chat_service`
(`{'text', 'metadata': {'start_time', 'end_time', 'index'}, 'distance'}`,
metadata flattened).  `distance` is optional: `_calculate_confidence` reads
it with `chunk.get('distance', 1.0)`. -/
structure RetrievedChunk where
  text : List Char
  start_time : ℚ
  end_time : ℚ
  index : ℕ
  distance : Option ℚ
  deriving DecidableEq, Repr

/-- Python `int()` applied to a float: truncation toward zero. -/
def pyInt (q : ℚ) : ℤ :=
  if 0 ≤ q then ⌊q⌋ else ⌈q⌉

/-- `AIChatService._calculate_confidence`: 0 on an empty list; otherwise the
mean distance (`chunk.get('distance', 1.0)`), mapped by
`max(0, min(100, int((1 - avg_distance / 2) * 100)))`, plus a +10 bonus
capped at 100 when at least 3 chunks are present. -/
def calculate_confidence (chunks : List RetrievedChunk) : ℤ :=
  if chunks.isEmpty then 0
  else
    let avg_distance :=
      (chunks.map fun c => c.distance.getD 1).sum / (chunks.length : ℚ)
    let confidence := max 0 (min 100 (pyInt ((1 - avg_distance / 2) * 100)))
    if 3 ≤ chunks.length then min 100 (confidence + 10) else confidence

/-- `clamp(lo, hi, x)` as used by the spec's confidence formula. -/
def clamp (lo hi x : ℤ) : ℤ :=
  max lo (min hi x)

/-- Modelled from the spec: the reference confidence definition (§4.5 step 4)
— empty list gives 0; otherwise `avgDistance` is the mean of the contributing
chunks' distances (context chunks contribute 0; absent distances default to 1
as in the code) and the score is `clamp(0, 100, round((1 − avgDistance/2) *
100))`, plus a +10 bonus capped at 100 when at least 3 chunks contributed.
`round` is rounding to the nearest integer (Mathlib's `round`). -/
def spec_confidence (chunks : List RetrievedChunk) : ℤ :=
  if chunks.isEmpty then 0
  else
    let avgDistance :=
      (chunks.map fun c => c.distance.getD 1).sum / (chunks.length : ℚ)
    let base := clamp 0 100 (round ((1 - avgDistance / 2) * 100))
    if 3 ≤ chunks.length then min 100 (base + 10) else base

/-- The amended reference confidence definition: identical to
`spec_confidence` except that the similarity percentage is truncated toward
zero (Python `int()`) instead of rounded to the nearest integer. -/
def spec_confidence_trunc (chunks : List RetrievedChunk) : ℤ :=
  if chunks.isEmpty then 0
  else
    let avgDistance :=
      (chunks.map fun c => c.distance.getD 1).sum / (chunks.length : ℚ)
    let base := clamp 0 100 (pyInt ((1 - avgDistance / 2) * 100))
    if 3 ≤ chunks.length then min 100 (base + 10) else base

/-- A chunk as stored in the per-video collection (one `metadatas[i]` +
`documents[i]` pair of `collection.get`). -/
structure StoredChunk where
  text : List Char
  start_time : ℚ
  end_time : ℚ
  index : ℕ
  deriving DecidableEq, Repr

/-- The dict built for a timestamp-window match: the stored chunk with
`'distance': 0.0` (direct timestamp match). -/
def toContextChunk (m : StoredChunk) : RetrievedChunk :=
  ⟨m.text, m.start_time, m.end_time, m.index, some 0⟩

/-- The sort key of `_get_chunks_by_timestamp`:
`abs(x['metadata']['start_time'] - timestamp)`. -/
def proximity (timestamp : ℚ) (x : RetrievedChunk) : ℚ :=
  |x.start_time - timestamp|

/-- `AIChatService._get_chunks_by_timestamp` (given the stored chunks of the
video's collection): keep chunks with `chunk_start <= timestamp + window`
and `chunk_end >= max(0, timestamp - window)`, each with distance `0.0`;
stable-sort by proximity of `start_time` to `timestamp`; return the first 5. -/
def get_chunks_by_timestamp (stored : List StoredChunk)
    (timestamp window_seconds : ℚ) : List RetrievedChunk :=
  let start_window := max 0 (timestamp - window_seconds)
  let end_window := timestamp + window_seconds
  let relevant := (stored.filter fun m =>
    decide (m.start_time ≤ end_window ∧ start_window ≤ m.end_time)).map toContextChunk
  (List.insertionSort
    (fun a b => proximity timestamp a ≤ proximity timestamp b) relevant).take 5

/-- Modelled from the spec (§4.5 step 1): filter the stored chunks to those
whose `[startTime, endTime]` interval intersects `[t − w, t + w]` (for
intervals, intersection is `startTime ≤ t + w ∧ t − w ≤ endTime`), assign
each distance 0, sort ascending by `|startTime − t|`, cap at 5. -/
def spec_context_chunks (stored : List StoredChunk) (t w : ℚ) :
    List RetrievedChunk :=
  let intersecting := (stored.filter fun m =>
    decide (m.start_time ≤ t + w ∧ t - w ≤ m.end_time)).map toContextChunk
  (List.insertionSort
    (fun a b => proximity t a ≤ proximity t b) intersecting).take 5

/-- The first merge loop of `ask_question` (lines 190–194): add each context
chunk whose `metadata['index']` is not yet in `seen_indices`, recording the
index.  The `seen_indices` set is modelled by a list used only for membership
and insertion. -/
def contextLoop :
    List RetrievedChunk → List ℕ → List RetrievedChunk →
    List ℕ × List RetrievedChunk
  | [], seen, chunks => (seen, chunks)
  | c :: rest, seen, chunks =>
    if c.index ∈ seen then contextLoop rest seen chunks
    else contextLoop rest (c.index :: seen) (chunks ++ [c])

/-- The second merge loop of `ask_question` (lines 197–201): add each
semantic chunk whose index is unseen, but only while the accumulated list is
shorter than `n_chunks * 2`. -/
def semanticLoop (n_chunks : ℕ) :
    List RetrievedChunk → List ℕ → List RetrievedChunk → List RetrievedChunk
  | [], _, chunks => chunks
  | c :: rest, seen, chunks =>
    if c.index ∉ seen ∧ chunks.length < n_chunks * 2 then
      semanticLoop n_chunks rest (c.index :: seen) (chunks ++ [c])
    else semanticLoop n_chunks rest seen chunks

/-- The combine-and-deduplicate step of `ask_question` (lines 185–201):
context chunks first, then semantic chunks, into one list. -/
def mergeChunks (context_chunks semantic_chunks : List RetrievedChunk)
    (n_chunks : ℕ) : List RetrievedChunk :=
  let s := contextLoop context_chunks [] []
  semanticLoop n_chunks semantic_chunks s.1 s.2

/-! ## Helper lemmas -/

/-- A line kept by the text-collection step is the line itself, and it is
not purely numeric. -/
lemma keepLine_eq_some {b : Bool} {line l : List Char}
    (h : keepLine b line = some l) : l = line ∧ pyIsDigit line = false := by
  unfold keepLine at h
  split_ifs at h with h1 h2 h3
  · exact ⟨(Option.some.injEq _ _ ▸ h).symm, Bool.not_eq_true _ ▸ h3⟩

/-- A purely numeric non-first line is never kept. -/
lemma keepLine_digit_none {line : List Char} (h : pyIsDigit line = true) :
    keepLine false line = none := by
  rcases hc : containsArrow line with _ | _
  · simp [keepLine, hc, h]
  · simp [keepLine, hc]

/-- Invariants of the context-chunk loop: accumulated indices stay recorded
in `seen`, the accumulated index list stays duplicate-free, and `seen` only
grows. -/
lemma contextLoop_invariant :
    ∀ (ctx : List RetrievedChunk) (seen : List ℕ) (chunks : List RetrievedChunk),
      (∀ c ∈ chunks, c.index ∈ seen) →
      ((chunks.map RetrievedChunk.index).Nodup) →
      (∀ c ∈ (contextLoop ctx seen chunks).2, c.index ∈ (contextLoop ctx seen chunks).1) ∧
      ((contextLoop ctx seen chunks).2.map RetrievedChunk.index).Nodup ∧
      (∀ i ∈ seen, i ∈ (contextLoop ctx seen chunks).1)
  | [], seen, chunks, h1, h2 => ⟨h1, h2, fun _ hi => hi⟩
  | c :: rest, seen, chunks, h1, h2 => by
    by_cases hc : c.index ∈ seen
    · simp only [contextLoop, if_pos hc]
      exact contextLoop_invariant rest seen chunks h1 h2
    · simp only [contextLoop, if_neg hc]
      obtain ⟨ha, hb, hs⟩ :=
        contextLoop_invariant rest (c.index :: seen) (chunks ++ [c])
          (by
            intro x hx
            rcases List.mem_append.mp hx with hx | hx
            · exact List.mem_cons_of_mem _ (h1 x hx)
            · simp only [List.mem_singleton] at hx
              subst hx
              exact List.mem_cons_self _ _)
          (by
            rw [List.map_append]
            simp only [List.map_cons, List.map_nil]
            rw [List.nodup_append]
            refine ⟨h2, List.nodup_singleton _, ?_⟩
            intro i hi hi'
            simp only [List.mem_singleton] at hi'
            subst hi'
            obtain ⟨x, hx, hxi⟩ := List.mem_map.mp hi
            exact hc (hxi ▸ h1 x hx))
      exact ⟨ha, hb, fun i hi => hs i (List.mem_cons_of_mem _ hi)⟩

/-- Invariants of the semantic-chunk loop: if the accumulated indices are
recorded in `seen` and duplicate-free, the final list's indices are
duplicate-free. -/
lemma semanticLoop_nodup :
    ∀ (sem : List RetrievedChunk) (n : ℕ) (seen : List ℕ) (chunks : List RetrievedChunk),
      (∀ c ∈ chunks, c.index ∈ seen) →
      ((chunks.map RetrievedChunk.index).Nodup) →
      ((semanticLoop n sem seen chunks).map RetrievedChunk.index).Nodup
  | [], _, _, _, _, h2 => h2
  | c :: rest, n, seen, chunks, h1, h2 => by
    by_cases hc : c.index ∉ seen ∧ chunks.length < n * 2
    · simp only [semanticLoop, if_pos hc]
      refine semanticLoop_nodup rest n (c.index :: seen) (chunks ++ [c]) ?_ ?_
      · intro x hx
        rcases List.mem_append.mp hx with hx | hx
        · exact List.mem_cons_of_mem _ (h1 x hx)
        · simp only [List.mem_singleton] at hx
          subst hx
          exact List.mem_cons_self _ _
      · rw [List.map_append]
        simp only [List.map_cons, List.map_nil]
        rw [List.nodup_append]
        refine ⟨h2, List.nodup_singleton _, ?_⟩
        intro i hi hi'
        simp only [List.mem_singleton] at hi'
        subst hi'
        obtain ⟨x, hx, hxi⟩ := List.mem_map.mp hi
        exact hc.1 (hxi ▸ h1 x hx)
    · simp only [semanticLoop, if_neg hc]
      exact semanticLoop_nodup rest n seen chunks h1 h2

/-- When the context chunks have pairwise-distinct indices and none of them
was seen before, the context loop appends all of them in order, and the
resulting `seen` set is the old one plus the context indices. -/
lemma contextLoop_fresh :
    ∀ (ctx : List RetrievedChunk) (seen : List ℕ) (chunks : List RetrievedChunk),
      ((ctx.map RetrievedChunk.index).Nodup) →
      (∀ c ∈ ctx, c.index ∉ seen) →
      (contextLoop ctx seen chunks).2 = chunks ++ ctx ∧
      (∀ i, i ∈ (contextLoop ctx seen chunks).1 ↔
        i ∈ seen ∨ i ∈ ctx.map RetrievedChunk.index)
  | [], seen, chunks, _, _ => by
    simp [contextLoop]
  | c :: rest, seen, chunks, h1, h2 => by
    have hc : c.index ∉ seen := h2 c (List.mem_cons_self _ _)
    simp only [contextLoop, if_neg hc]
    have hrest1 : ((rest.map RetrievedChunk.index).Nodup) := by
      simpa using h1.of_cons
    have hrest2 : ∀ x ∈ rest, x.index ∉ c.index :: seen := by
      intro x hx
      simp only [List.mem_cons, not_or]
      refine ⟨?_, h2 x (List.mem_cons_of_mem _ hx)⟩
      intro hxi
      have h1' : (c.index :: rest.map RetrievedChunk.index).Nodup := by
        simpa using h1
      exact (List.nodup_cons.mp h1').1
        (hxi ▸ List.mem_map_of_mem RetrievedChunk.index hx)
    obtain ⟨ha, hb⟩ := contextLoop_fresh rest (c.index :: seen) (chunks ++ [c]) hrest1 hrest2
    constructor
    · rw [ha, List.append_assoc]
      rfl
    · intro i
      rw [hb i]
      simp only [List.mem_cons, List.map_cons]
      tauto

/-- The semantic loop only appends: the result is the accumulated list plus
a tail of semantic chunks whose index was unseen. -/
lemma semanticLoop_append :
    ∀ (sem : List RetrievedChunk) (n : ℕ) (seen : List ℕ) (chunks : List RetrievedChunk),
      ∃ tail, semanticLoop n sem seen chunks = chunks ++ tail ∧
        ∀ c ∈ tail, c ∈ sem ∧ c.index ∉ seen
  | [], n, seen, chunks => ⟨[], by simp [semanticLoop], by simp⟩
  | c :: rest, n, seen, chunks => by
    by_cases hc : c.index ∉ seen ∧ chunks.length < n * 2
    · simp only [semanticLoop, if_pos hc]
      obtain ⟨tail, ht, hprop⟩ := semanticLoop_append rest n (c.index :: seen) (chunks ++ [c])
      refine ⟨c :: tail, ?_, ?_⟩
      · rw [ht, List.append_assoc]
        rfl
      · intro x hx
        rcases List.mem_cons.mp hx with rfl | hx
        · exact ⟨List.mem_cons_self _ _, hc.1⟩
        · obtain ⟨hx1, hx2⟩ := hprop x hx
          exact ⟨List.mem_cons_of_mem _ hx1, fun hmem => hx2 (List.mem_cons_of_mem _ hmem)⟩
    · simp only [semanticLoop, if_neg hc]
      obtain ⟨tail, ht, hprop⟩ := semanticLoop_append rest n seen chunks
      exact ⟨tail, ht, fun x hx => ⟨List.mem_cons_of_mem _ (hprop x hx).1, (hprop x hx).2⟩⟩

/-- The semantic loop never grows the list beyond
`max (initial length) (n_chunks * 2)`. -/
lemma semanticLoop_length_le :
    ∀ (sem : List RetrievedChunk) (n : ℕ) (seen : List ℕ) (chunks : List RetrievedChunk),
      (semanticLoop n sem seen chunks).length ≤ max chunks.length (n * 2)
  | [], n, seen, chunks => le_max_left _ _
  | c :: rest, n, seen, chunks => by
    by_cases hc : c.index ∉ seen ∧ chunks.length < n * 2
    · simp only [semanticLoop, if_pos hc]
      have := semanticLoop_length_le rest n (c.index :: seen) (chunks ++ [c])
      have hlen : (chunks ++ [c]).length = chunks.length + 1 := by simp
      rw [hlen] at this
      omega
    · simp only [semanticLoop, if_neg hc]
      exact semanticLoop_length_le rest n seen chunks

/-- When every window is non-empty, the chunk loop produces one chunk per
window. -/
lemma buildChunks_length :
    ∀ (ws : List (List Entry)) (idx : ℕ), (∀ w ∈ ws, w ≠ []) →
      (buildChunks ws idx).length = ws.length
  | [], _, _ => rfl
  | w :: rest, idx, h => by
    have hw : ¬ w.isEmpty := by
      simp [List.isEmpty_iff, h w (List.mem_cons_self _ _)]
    simp only [buildChunks, if_neg hw, List.length_cons]
    rw [buildChunks_length rest (idx + 1) fun x hx => h x (List.mem_cons_of_mem _ hx)]

/-- When every window is non-empty, the produced indices are the consecutive
run starting at the initial index. -/
lemma buildChunks_map_index :
    ∀ (ws : List (List Entry)) (idx : ℕ), (∀ w ∈ ws, w ≠ []) →
      (buildChunks ws idx).map TranscriptChunk.index = List.range' idx ws.length
  | [], _, _ => rfl
  | w :: rest, idx, h => by
    have hw : ¬ w.isEmpty := by
      simp [List.isEmpty_iff, h w (List.mem_cons_self _ _)]
    simp only [buildChunks, if_neg hw, List.map_cons, List.length_cons, List.range'_succ]
    rw [buildChunks_map_index rest (idx + 1) fun x hx => h x (List.mem_cons_of_mem _ hx)]
    rfl

/-- When every window is non-empty, the `k`-th produced chunk is built from
the `k`-th window with index `idx + k`. -/
lemma buildChunks_getElem? :
    ∀ (ws : List (List Entry)) (idx k : ℕ), (∀ w ∈ ws, w ≠ []) →
      (buildChunks ws idx)[k]? = (ws[k]?).map fun w => mkChunk w (idx + k)
  | [], idx, k, _ => by simp [buildChunks]
  | w :: rest, idx, k, h => by
    have hw : ¬ w.isEmpty := by
      simp [List.isEmpty_iff, h w (List.mem_cons_self _ _)]
    simp only [buildChunks, if_neg hw]
    rcases k with _ | k
    · simp
    · rw [List.getElem?_cons_succ, List.getElem?_cons_succ,
        buildChunks_getElem? rest (idx + 1) k fun x hx => h x (List.mem_cons_of_mem _ hx)]
      have : idx + 1 + k = idx + (k + 1) := by omega
      rw [this]

/-- The natural-number form of `⌈N / s⌉` used by `range(0, N, s)`. -/
lemma natCeilDiv_cast (N s : ℕ) (hs : 1 ≤ s) :
    (((N + s - 1) / s : ℕ) : ℤ) = ⌈(N : ℚ) / (s : ℚ)⌉ := by
  have hs0 : (0 : ℚ) < (s : ℚ) := by exact_mod_cast hs
  rcases Nat.eq_zero_or_pos N with hN | hN
  · subst hN
    rw [Nat.div_eq_of_lt (by omega)]
    simp
  · rw [eq_comm, Int.ceil_eq_iff]
    have hqr := Nat.div_add_mod' (N + s - 1) s
    have hr := Nat.mod_lt (N + s - 1) (by omega : 0 < s)
    have hub : (N + s - 1) / s * s ≤ N + s - 1 := by omega
    have hlb : N ≤ (N + s - 1) / s * s := by omega
    constructor
    · rw [lt_div_iff₀ hs0]
      have hq1 : (N + s - 1) / s * s + 1 ≤ N + s := by omega
      have hq1' : (((N + s - 1) / s : ℕ) : ℚ) * (s : ℚ) + 1 ≤ (N : ℚ) + (s : ℚ) := by
        exact_mod_cast hq1
      have hcast : ((((N + s - 1) / s : ℕ) : ℤ) : ℚ) = (((N + s - 1) / s : ℕ) : ℚ) := by
        exact_mod_cast rfl
      rw [hcast]
      nlinarith [hq1']
    · rw [div_le_iff₀ hs0]
      exact_mod_cast hlb

/-- Every window enumerated by `chunk_transcript` (for `overlap <
chunk_size`) is non-empty. -/
lemma chunk_windows_ne_nil (entries : List Entry) (c o : ℕ) (hoc : o < c) :
    ∀ w ∈ (chunkStarts entries.length (c - o)).map
      (fun i => (entries.drop i).take c), w ≠ [] := by
  intro w hw
  obtain ⟨i, hi, rfl⟩ := List.mem_map.mp hw
  obtain ⟨k, hk', rfl⟩ :
      ∃ a, a < (entries.length + (c - o) - 1) / (c - o) ∧ a * (c - o) = i := by
    simpa [chunkStarts, List.mem_map, List.mem_range] using hi
  set s := c - o with hs
  have hs1 : 1 ≤ s := by omega
  have h1 : (k + 1) * s ≤ ((entries.length + s - 1) / s) * s :=
    Nat.mul_le_mul_right s (by omega)
  have h2 : ((entries.length + s - 1) / s) * s ≤ entries.length + s - 1 :=
    Nat.div_mul_le_self _ _
  have hK1 : 1 ≤ (entries.length + s - 1) / s := by omega
  have hN1 : 1 ≤ entries.length := by
    by_contra hN
    have hN0 : entries.length = 0 := by omega
    rw [hN0, Nat.div_eq_of_lt (by omega : 0 + s - 1 < s)] at hK1
    omega
  have hks : k * s < entries.length := by
    have h3 : (k + 1) * s ≤ entries.length + s - 1 := le_trans h1 h2
    have h4 : k * s + s = (k + 1) * s := by ring
    omega
  intro hnil
  rcases List.take_eq_nil_iff.mp hnil with hc0 | hdrop
  · omega
  · exact absurd (List.drop_eq_nil_iff.mp hdrop) (by omega)

/-! ## Claim theorems -/

/-- C9: for every list of retrieved chunks, the confidence score is an
integer in `[0, 100]`, and it is exactly 0 on the empty list. -/
theorem confidence_score_bounds (chunks : List RetrievedChunk) :
    0 ≤ calculate_confidence chunks ∧ calculate_confidence chunks ≤ 100 ∧
      (chunks = [] → calculate_confidence chunks = 0) := by
  rcases chunks with _ | ⟨c, cs⟩
  · exact ⟨by simp [calculate_confidence], by simp [calculate_confidence],
      fun _ => by simp [calculate_confidence]⟩
  · refine ⟨?_, ?_, by simp⟩ <;>
    · simp only [calculate_confidence, List.isEmpty_cons, if_neg]
      split_ifs <;> omega

/-- Witness for C9, at the empty chunk list. -/
theorem confidence_score_bounds_witness :
    0 ≤ calculate_confidence [] ∧ calculate_confidence [] ≤ 100 ∧
      calculate_confidence [] = 0 :=
  ⟨(confidence_score_bounds []).1, (confidence_score_bounds []).2.1,
    (confidence_score_bounds []).2.2 rfl⟩

/-- Counterexample for C1: on a single chunk with distance `0.49` the code's
score is 75 (truncation toward zero of 75.5) while the spec's reference
formula rounds to 76, so the two disagree. -/
theorem confidence_round_counterexample :
    calculate_confidence [⟨[], 0, 0, 0, some (49/100)⟩] = 75 ∧
    spec_confidence [⟨[], 0, 0, 0, some (49/100)⟩] = 76 ∧
    calculate_confidence [⟨[], 0, 0, 0, some (49/100)⟩] ≠
      spec_confidence [⟨[], 0, 0, 0, some (49/100)⟩] := by
  refine ⟨?_, ?_, ?_⟩
  · norm_num [calculate_confidence, pyInt]
  · norm_num [spec_confidence, clamp, round_eq]
  · norm_num [calculate_confidence, spec_confidence, pyInt, clamp, round_eq]

/-- C1 (amended): the confidence score equals the spec's reference formula
with the similarity percentage truncated toward zero (Python `int()`)
instead of rounded to the nearest integer. -/
theorem confidence_eq_spec_trunc (chunks : List RetrievedChunk) :
    calculate_confidence chunks = spec_confidence_trunc chunks := by
  simp only [calculate_confidence, spec_confidence_trunc, clamp]

/-- Counterexample for C3: the `n_chunks * 2` cap of the merge step is only
checked while appending semantic chunks; all (deduplicated) context chunks
are added unconditionally.  With `n_chunks = 1` and three context chunks of
distinct indices, the merged list has 3 > 2 entries. -/
theorem merge_cap_counterexample :
    ¬ ((mergeChunks [⟨[], 0, 0, 0, some 0⟩, ⟨[], 0, 0, 1, some 0⟩,
        ⟨[], 0, 0, 2, some 0⟩] [] 1).length ≤ 1 * 2) := by
  decide

/-- C4: with `overlap < chunk_size`, `chunk_transcript` produces exactly
`⌈N / (chunk_size − overlap)⌉` chunks for `N > 0` entries and none for an
empty entry list. -/
theorem chunk_count_eq_ceil (entries : List Entry) (c o : ℕ) (hoc : o < c) :
    (entries ≠ [] → ((chunk_transcript entries c o).length : ℤ) =
      ⌈(entries.length : ℚ) / ((c : ℚ) - (o : ℚ))⌉) ∧
    (entries = [] → (chunk_transcript entries c o).length = 0) := by
  have hwin := chunk_windows_ne_nil entries c o hoc
  have hlen : (chunk_transcript entries c o).length =
      (entries.length + (c - o) - 1) / (c - o) := by
    unfold chunk_transcript
    rw [buildChunks_length _ 0 hwin, List.length_map]
    simp [chunkStarts]
  constructor
  · intro _
    rw [hlen]
    have hcast : (c : ℚ) - (o : ℚ) = ((c - o : ℕ) : ℚ) := by
      rw [Nat.cast_sub (le_of_lt hoc)]
    rw [hcast]
    exact natCeilDiv_cast entries.length (c - o) (by omega)
  · intro he
    subst he
    rw [hlen]
    simp only [List.length_nil]
    exact Nat.div_eq_of_lt (by omega)

/-- Witness for C4, at the spec's example: 12 entries, chunk size 5,
overlap 1, giving ⌈12/4⌉ = 3 chunks. -/
theorem chunk_count_eq_ceil_witness :
    (1 : ℕ) < 5 ∧ (List.replicate 12 (⟨0, 1, ['x']⟩ : Entry)) ≠ [] ∧
    ((chunk_transcript (List.replicate 12 ⟨0, 1, ['x']⟩) 5 1).length : ℤ) =
      ⌈((List.replicate 12 (⟨0, 1, ['x']⟩ : Entry)).length : ℚ) /
        ((5 : ℚ) - (1 : ℚ))⌉ ∧
    (chunk_transcript (List.replicate 12 ⟨0, 1, ['x']⟩) 5 1).length = 3 :=
  ⟨by decide, by decide,
    (chunk_count_eq_ceil _ 5 1 (by decide)).1 (by decide), by decide⟩

/-- C7: with `overlap < chunk_size` and a non-empty entry list, every
produced chunk takes its `start_time` from the first entry of its window,
its `end_time` from the last entry of its window, its text from the
space-join of the window's texts, and the chunk indices are the contiguous
run `0 .. M−1` in output order. -/
theorem chunk_fields_from_window (entries : List Entry) (c o : ℕ)
    (hoc : o < c) (_hne : entries ≠ []) :
    ((chunk_transcript entries c o).map TranscriptChunk.index =
      List.range (chunk_transcript entries c o).length) ∧
    (∀ k ch, (chunk_transcript entries c o)[k]? = some ch →
      ∃ hw : ((entries.drop (k * (c - o))).take c) ≠ [],
        ch.start_time = (((entries.drop (k * (c - o))).take c).head hw).start_time ∧
        ch.end_time = (((entries.drop (k * (c - o))).take c).getLast hw).end_time ∧
        ch.text = List.intercalate [' ']
          (((entries.drop (k * (c - o))).take c).map Entry.text) ∧
        ch.index = k) := by
  have hwin := chunk_windows_ne_nil entries c o hoc
  constructor
  · unfold chunk_transcript
    rw [buildChunks_map_index _ 0 hwin, buildChunks_length _ 0 hwin,
      List.range_eq_range']
  · intro k ch hch
    unfold chunk_transcript at hch
    rw [buildChunks_getElem? _ 0 k hwin] at hch
    obtain ⟨w, hwk, rfl⟩ := Option.map_eq_some'.mp hch
    have hwne : w ≠ [] := hwin w (List.getElem?_mem hwk)
    rw [List.getElem?_map] at hwk
    obtain ⟨i, hik, hiw⟩ := Option.map_eq_some'.mp hwk
    rw [chunkStarts, List.getElem?_map] at hik
    obtain ⟨k', hk', hk'i⟩ := Option.map_eq_some'.mp hik
    have hkk : k' = k := by
      rcases lt_or_ge k ((entries.length + (c - o) - 1) / (c - o)) with h1 | h1
      · rw [List.getElem?_range h1] at hk'
        exact (Option.some.injEq _ _ ▸ hk').symm
      · rw [List.getElem?_eq_none (by simpa using h1)] at hk'
        cases hk'
    rw [hkk] at hk'i
    subst hk'i
    subst hiw
    refine ⟨hwne, ?_, ?_, ?_, ?_⟩
    · show (mkChunk _ (0 + k)).start_time = _
      simp [mkChunk, List.head?_eq_head hwne]
    · show (mkChunk _ (0 + k)).end_time = _
      simp [mkChunk, List.getLast?_eq_getLast _ hwne]
    · rfl
    · show (mkChunk _ (0 + k)).index = k
      simp [mkChunk]

/-- Witness for C7, at three entries with chunk size 2 and overlap 1: the
first produced chunk is checked against its window. -/
theorem chunk_fields_from_window_witness :
    ((1 : ℕ) < 2 ∧ ([⟨0, 1, ['a']⟩, ⟨2, 3, ['b']⟩, ⟨4, 5, ['c']⟩] : List Entry) ≠ []) ∧
    ((chunk_transcript [⟨0, 1, ['a']⟩, ⟨2, 3, ['b']⟩, ⟨4, 5, ['c']⟩] 2 1).map
        TranscriptChunk.index =
      List.range (chunk_transcript [⟨0, 1, ['a']⟩, ⟨2, 3, ['b']⟩, ⟨4, 5, ['c']⟩] 2 1).length) ∧
    (∃ hw : ((([⟨0, 1, ['a']⟩, ⟨2, 3, ['b']⟩, ⟨4, 5, ['c']⟩] : List Entry).drop
        (0 * (2 - 1))).take 2) ≠ [],
      (⟨['a', ' ', 'b'], 0, 3, 0⟩ : TranscriptChunk).start_time =
        (((([⟨0, 1, ['a']⟩, ⟨2, 3, ['b']⟩, ⟨4, 5, ['c']⟩] : List Entry).drop
          (0 * (2 - 1))).take 2).head hw).start_time ∧
      (⟨['a', ' ', 'b'], 0, 3, 0⟩ : TranscriptChunk).end_time =
        (((([⟨0, 1, ['a']⟩, ⟨2, 3, ['b']⟩, ⟨4, 5, ['c']⟩] : List Entry).drop
          (0 * (2 - 1))).take 2).getLast hw).end_time ∧
      (⟨['a', ' ', 'b'], 0, 3, 0⟩ : TranscriptChunk).text =
        List.intercalate [' ']
          (((([⟨0, 1, ['a']⟩, ⟨2, 3, ['b']⟩, ⟨4, 5, ['c']⟩] : List Entry).drop
            (0 * (2 - 1))).take 2).map Entry.text) ∧
      (⟨['a', ' ', 'b'], 0, 3, 0⟩ : TranscriptChunk).index = 0) :=
  ⟨⟨by decide, by decide⟩,
    (chunk_fields_from_window _ 2 1 (by decide) (by decide)).1,
    (chunk_fields_from_window _ 2 1 (by decide) (by decide)).2 0
      ⟨['a', ' ', 'b'], 0, 3, 0⟩ (by decide)⟩

/-- C5: for stored chunks with non-negative end times (true of all parsed
transcript chunks), the timestamp-window retrieval returns exactly the
stored chunks whose `[startTime, endTime]` interval intersects
`[t − w, t + w]`, sorted ascending by `|startTime − t|`, capped at 5, each
with distance 0.  The non-negativity hypothesis discharges the code's
clamped lower window bound `max(0, t − w)`. -/
theorem timestamp_context_matches_spec (stored : List StoredChunk) (t w : ℚ)
    (h : ∀ m ∈ stored, 0 ≤ m.end_time) :
    get_chunks_by_timestamp stored t w = spec_context_chunks stored t w ∧
    (∀ ch ∈ get_chunks_by_timestamp stored t w, ch.distance = some 0) ∧
    (get_chunks_by_timestamp stored t w).length ≤ 5 ∧
    List.Sorted (fun a b => proximity t a ≤ proximity t b)
      (get_chunks_by_timestamp stored t w) := by
  have hfilter : (stored.filter fun m =>
      decide (m.start_time ≤ t + w ∧ max 0 (t - w) ≤ m.end_time)) =
      (stored.filter fun m => decide (m.start_time ≤ t + w ∧ t - w ≤ m.end_time)) := by
    apply List.filter_congr
    intro m hm
    rw [decide_eq_decide]
    have h0 : (0 : ℚ) ≤ m.end_time := h m hm
    constructor
    · rintro ⟨h1, h2⟩
      exact ⟨h1, le_trans (le_max_right _ _) h2⟩
    · rintro ⟨h1, h2⟩
      exact ⟨h1, max_le h0 h2⟩
  refine ⟨?_, ?_, ?_, ?_⟩
  · simp only [get_chunks_by_timestamp, spec_context_chunks]
    rw [hfilter]
  · intro ch hch
    simp only [get_chunks_by_timestamp] at hch
    have h1 := List.take_subset _ _ hch
    have h2 := (List.perm_insertionSort _ _).subset h1
    obtain ⟨m, _, rfl⟩ := List.mem_map.mp h2
    rfl
  · simp only [get_chunks_by_timestamp]
    exact List.length_take_le 5 _
  · simp only [get_chunks_by_timestamp]
    haveI : IsTotal RetrievedChunk (fun a b => proximity t a ≤ proximity t b) :=
      ⟨fun a b => le_total _ _⟩
    haveI : IsTrans RetrievedChunk (fun a b => proximity t a ≤ proximity t b) :=
      ⟨fun _ _ _ hab hbc => le_trans hab hbc⟩
    exact List.Pairwise.sublist (List.take_sublist _ _)
      (List.sorted_insertionSort _ _)

/-- Witness for C5, at the spec's example: timestamp 65, window 30; the
chunk spanning `[40, 50]` is returned (it intersects `[35, 95]`), the chunk
spanning `[10, 20]` is not. -/
theorem timestamp_context_matches_spec_witness :
    (∀ m ∈ ([⟨['x'], 40, 50, 0⟩, ⟨['y'], 10, 20, 1⟩] : List StoredChunk),
      0 ≤ m.end_time) ∧
    (get_chunks_by_timestamp [⟨['x'], 40, 50, 0⟩, ⟨['y'], 10, 20, 1⟩] 65 30 =
        spec_context_chunks [⟨['x'], 40, 50, 0⟩, ⟨['y'], 10, 20, 1⟩] 65 30 ∧
      (∀ ch ∈ get_chunks_by_timestamp [⟨['x'], 40, 50, 0⟩, ⟨['y'], 10, 20, 1⟩] 65 30,
        ch.distance = some 0) ∧
      (get_chunks_by_timestamp [⟨['x'], 40, 50, 0⟩, ⟨['y'], 10, 20, 1⟩] 65 30).length ≤ 5 ∧
      List.Sorted (fun a b => proximity 65 a ≤ proximity 65 b)
        (get_chunks_by_timestamp [⟨['x'], 40, 50, 0⟩, ⟨['y'], 10, 20, 1⟩] 65 30)) ∧
    get_chunks_by_timestamp [⟨['x'], 40, 50, 0⟩, ⟨['y'], 10, 20, 1⟩] 65 30 =
      [toContextChunk ⟨['x'], 40, 50, 0⟩] :=
  ⟨by decide,
    timestamp_context_matches_spec _ 65 30 (by decide),
    by norm_num [get_chunks_by_timestamp, toContextChunk, List.insertionSort,
      List.orderedInsert, List.filter, proximity]⟩

/-- C6: the offline fallback embedding is a pure function of its text (two
invocations agree definitionally), returns a vector of length exactly the
configured dimension, and every component lies in `[0, 1]`.  The digest
function is abstract, assumed only to produce 32 bytes (as
`hashlib.sha256(...).digest()` does). -/
theorem fallback_embedding_pure_length_range (sha : List Char → List ℕ)
    (text : List Char) (dims : ℕ) (hlen : (sha text).length = 32)
    (hbyte : ∀ b ∈ sha text, b < 256) :
    fallback_embedding sha text dims = fallback_embedding sha text dims ∧
    (fallback_embedding sha text dims).length = dims ∧
    ∀ x ∈ fallback_embedding sha text dims, 0 ≤ x ∧ x ≤ 1 := by
  refine ⟨rfl, ?_, ?_⟩
  · simp only [fallback_embedding, List.length_map, List.length_take, hlen]
    rw [List.length_flatten, List.map_replicate, hlen, List.sum_replicate,
      smul_eq_mul]
    omega
  · intro x hx
    simp only [fallback_embedding] at hx
    obtain ⟨b, hb, rfl⟩ := List.mem_map.mp hx
    have hb' := List.take_subset _ _ hb
    obtain ⟨l, hl, hbl⟩ := List.mem_flatten.mp hb'
    have hld : l = sha text := List.eq_of_mem_replicate hl
    subst hld
    have hb256 : b < 256 := hbyte b hbl
    constructor
    · positivity
    · rw [div_le_one (by norm_num : (0 : ℚ) < 255)]
      exact_mod_cast (by omega : b ≤ 255)

/-- Witness for C6, with a concrete 32-byte digest function, dimension 10. -/
theorem fallback_embedding_pure_length_range_witness :
    ((fun _ : List Char => List.replicate 32 7) "hello".toList).length = 32 ∧
    (∀ b ∈ (fun _ : List Char => List.replicate 32 7) "hello".toList, b < 256) ∧
    (fallback_embedding (fun _ => List.replicate 32 7) "hello".toList 10 =
        fallback_embedding (fun _ => List.replicate 32 7) "hello".toList 10 ∧
      (fallback_embedding (fun _ => List.replicate 32 7) "hello".toList 10).length = 10 ∧
      ∀ x ∈ fallback_embedding (fun _ => List.replicate 32 7) "hello".toList 10,
        0 ≤ x ∧ x ≤ 1) :=
  ⟨by decide, by decide,
    fallback_embedding_pure_length_range _ _ 10 (by decide) (by decide)⟩

/-- C8: a malformed cue — one whose processing yields no entry, be it for a
missing timestamp line, unparseable timestamps, or no remaining text — is
skipped without affecting the entries produced from the other cues, and the
parse (a total function) always returns the remaining cues' entries. -/
theorem parse_vtt_skips_bad_cue (pre post : List (List Char))
    (bad : List Char) (h : parseCue bad = none) :
    parse_vtt_cues (pre ++ bad :: post) = parse_vtt_cues (pre ++ post) := by
  simp [parse_vtt_cues, List.filterMap_append, List.filterMap_cons, h]

/-- Witness for C8: dropping a concrete arrow-less cue between two
well-formed cues leaves the parse result unchanged. -/
theorem parse_vtt_skips_bad_cue_witness :
    parseCue "no timestamp here\njust text".toList = none ∧
    parse_vtt_cues ["00:00:01.000 --> 00:00:02.000\nhello".toList,
        "no timestamp here\njust text".toList,
        "00:00:03.000 --> 00:00:04.000\nworld".toList] =
      parse_vtt_cues ["00:00:01.000 --> 00:00:02.000\nhello".toList,
        "00:00:03.000 --> 00:00:04.000\nworld".toList] :=
  ⟨by decide,
    parse_vtt_skips_bad_cue ["00:00:01.000 --> 00:00:02.000\nhello".toList]
      ["00:00:03.000 --> 00:00:04.000\nworld".toList] _ (by decide)⟩

/-- C10: a purely numeric cue line is excluded from the cue text wherever it
occurs, and a cue whose lines after the timestamp line are all purely
numeric produces no entry at all (its text is empty), regardless of whether
its timestamps parse. -/
theorem digit_lines_excluded :
    (∀ (lines : List (List Char)) (l : List Char),
      l ∈ collectTextLines lines → pyIsDigit l = false) ∧
    (∀ (tl : List Char) (ds : List (List Char)),
      containsArrow tl = true → ds ≠ [] → (∀ l ∈ ds, pyIsDigit l = true) →
      parseCueLines (tl :: ds) = none) := by
  constructor
  · rintro (_ | ⟨l0, rest⟩) l hl
    · simp [collectTextLines] at hl
    · simp only [collectTextLines, List.mem_append] at hl
      rcases hl with hl | hl
      · rcases ho : keepLine true l0 with _ | v
        · simp [ho] at hl
        · rw [ho] at hl
          simp only [Option.toList_some, List.mem_singleton] at hl
          obtain ⟨rfl, hd⟩ := keepLine_eq_some ho
          exact hl ▸ hd
      · obtain ⟨a, _, ha⟩ := List.mem_filterMap.mp hl
        obtain ⟨rfl, hd⟩ := keepLine_eq_some ha
        exact hd
  · intro tl ds harrow hne hdig
    have hcollect : collectTextLines (tl :: ds) = [] := by
      simp only [collectTextLines]
      have h0 : keepLine true tl = none := by
        unfold keepLine
        rw [if_pos harrow]
      rw [h0]
      simp only [Option.toList_none, List.nil_append]
      rw [List.filterMap_eq_nil_iff]
      exact fun l hl => keepLine_digit_none (hdig l hl)
    have hsplit : 2 ≤ (splitArrow tl).length := of_decide_eq_true harrow
    obtain ⟨t0, t1, rest, hs⟩ : ∃ t0 t1 rest, splitArrow tl = t0 :: t1 :: rest := by
      rcases h : splitArrow tl with _ | ⟨a, _ | ⟨b, r⟩⟩
      · rw [h] at hsplit; simp at hsplit
      · rw [h] at hsplit; simp at hsplit
      · exact ⟨a, b, r, rfl⟩
    have hlen : ¬ ((tl :: ds).length < 2) := by
      have := List.length_pos.mpr hne
      simp only [List.length_cons]
      omega
    have htext :
        (pyStrip (List.intercalate [' '] (collectTextLines (tl :: ds)))).isEmpty = true := by
      rw [hcollect]; rfl
    unfold parseCueLines
    rw [if_neg hlen]
    simp only [harrow, reduceIte, hs]
    split
    · simp [htext]
    · rfl

/-- C2: the merged chunk list produced by the retrieval step of
`ask_question` never contains two entries with the same metadata index, for
every combination of context chunks, semantic chunks and `n_chunks`. -/
theorem merge_no_duplicate_index (context_chunks semantic_chunks : List RetrievedChunk)
    (n_chunks : ℕ) :
    ((mergeChunks context_chunks semantic_chunks n_chunks).map RetrievedChunk.index).Nodup := by
  unfold mergeChunks
  obtain ⟨h1, h2, -⟩ :=
    contextLoop_invariant context_chunks [] [] (by simp) (by simp)
  exact semanticLoop_nodup semantic_chunks n_chunks _ _ h1 h2

/-- C3 (amended): for context chunks with pairwise-distinct indices, the
merge starts with the context chunks in their order, then appends semantic
chunks whose index is not already present, and the total length never
exceeds `max (number of context chunks) (n_chunks * 2)`. -/
theorem merge_structure_and_bound (context_chunks semantic_chunks : List RetrievedChunk)
    (n_chunks : ℕ) (hctx : ((context_chunks.map RetrievedChunk.index).Nodup)) :
    (∃ tail, mergeChunks context_chunks semantic_chunks n_chunks = context_chunks ++ tail ∧
      ∀ c ∈ tail, c ∈ semantic_chunks ∧
        c.index ∉ context_chunks.map RetrievedChunk.index) ∧
    (mergeChunks context_chunks semantic_chunks n_chunks).length ≤
      max context_chunks.length (n_chunks * 2) := by
  unfold mergeChunks
  obtain ⟨ha, hb⟩ := contextLoop_fresh context_chunks [] [] hctx (by simp)
  constructor
  · obtain ⟨tail, ht, hprop⟩ :=
      semanticLoop_append semantic_chunks n_chunks
        (contextLoop context_chunks [] []).1 (contextLoop context_chunks [] []).2
    refine ⟨tail, ?_, ?_⟩
    · rw [ht, ha]
      simp
    · intro c hc
      refine ⟨(hprop c hc).1, fun hmem => (hprop c hc).2 ?_⟩
      exact (hb c.index).mpr (Or.inr hmem)
  · have ha' : (contextLoop context_chunks [] []).2 = context_chunks := by
      simpa using ha
    simp only [ha']
    exact semanticLoop_length_le semantic_chunks n_chunks _ _

/-- Witness for C3's amended claim, at one context chunk, two semantic
chunks and `n_chunks = 1`. -/
theorem merge_structure_and_bound_witness :
    (([⟨[], 0, 0, 0, some 0⟩] : List RetrievedChunk).map RetrievedChunk.index).Nodup ∧
    ((∃ tail, mergeChunks [⟨[], 0, 0, 0, some 0⟩]
        [⟨[], 0, 0, 0, some (1/2)⟩, ⟨[], 0, 0, 1, some (1/2)⟩] 1 =
        [⟨[], 0, 0, 0, some 0⟩] ++ tail ∧
      ∀ c ∈ tail, c ∈ [⟨[], 0, 0, 0, some (1/2)⟩, ⟨[], 0, 0, 1, some (1/2)⟩] ∧
        c.index ∉ ([⟨[], 0, 0, 0, some 0⟩] : List RetrievedChunk).map RetrievedChunk.index) ∧
    (mergeChunks [⟨[], 0, 0, 0, some 0⟩]
        [⟨[], 0, 0, 0, some (1/2)⟩, ⟨[], 0, 0, 1, some (1/2)⟩] 1).length ≤
      max ([⟨[], 0, 0, 0, some 0⟩] : List RetrievedChunk).length (1 * 2)) :=
  ⟨by decide, merge_structure_and_bound _ _ 1 (by decide)⟩

/-- Witness for C10: the concrete cue whose only non-timestamp line is
`42`, with timestamps that do parse, yields no entry. -/
theorem digit_lines_excluded_witness :
    containsArrow "00:00:01.000 --> 00:00:02.000".toList = true ∧
    (["42".toList] : List (List Char)) ≠ [] ∧
    (∀ l ∈ (["42".toList] : List (List Char)), pyIsDigit l = true) ∧
    (parse_timestamp (pyStrip "00:00:01.000 ".toList)).isSome = true ∧
    parseCueLines ["00:00:01.000 --> 00:00:02.000".toList, "42".toList] = none :=
  ⟨by decide, by decide, by decide, by decide,
    digit_lines_excluded.2 "00:00:01.000 --> 00:00:02.000".toList
      ["42".toList] (by decide) (by decide) (by decide)⟩

end ITS
